import Mathlib

/-!
Verification of the AST node / range / traversal substrate of the toolchain,
together with the documentation-generator lookup tables.

The C++ header src/hilti/toolchain/include/ast/node-range.h is embedded
shallowly: shared pointers to nodes become `Node` values carrying an explicit
numeric identity (the address of the heap object), iterator positions become
indices into the underlying child vector, and the debug assertions in
`RangeIterator::value` and `Range::operator[]` become `Option` results where
`none` marks a fired assertion.

The Python documentation generator (spicy-doc-to-rst) is embedded directly:
its namespace-mapping table and the In/InInv generation step in the main loop
become Lean functions over record types mirroring the parsed JSON entries.
-/

namespace Hilti

/-- Source provenance attached to a node: location plus comment (value type). -/
structure Meta where
  location : String
  comment : String
deriving DecidableEq

/-- A small tagged scalar stored in a property bag of a node. -/
inductive PropertyValue where
  | str (s : String)
  | int (i : Int)
  | bool (b : Bool)
deriving DecidableEq

/-- Kind-specific scalar payload of a node: named tagged values. -/
abbrev Properties := List (String × PropertyValue)

/-- Capability interfaces a node kind may satisfy (trait tags). -/
inductive Cap where
  | isNode
  | isType
  | isExpression
  | isDeclaration
deriving DecidableEq

/-- A sample of node kinds of the intermediate language. -/
inductive Kind where
  | exprLiteral
  | exprCall
  | typeSignedInteger
  | typeUnsignedInteger
  | declFunction
  | stmtBlock
deriving DecidableEq

/-- Trait registry: the capability set of each kind, fixed at definition time
(isNode always, the others conditional on the kind). -/
def traits : Kind → List Cap
  | .exprLiteral => [.isNode, .isExpression]
  | .exprCall => [.isNode, .isExpression]
  | .typeSignedInteger => [.isNode, .isType]
  | .typeUnsignedInteger => [.isNode, .isType]
  | .declFunction => [.isNode, .isDeclaration]
  | .stmtBlock => [.isNode]

/-- An AST node: the identity field models the address of the heap object a
shared pointer designates, so two handles alias the same object exactly when
their identities agree. A node carries its kind, meta data, property bag,
prune flag and the ordered sequence of owned children. -/
inductive Node where
  | mk (id : Nat) (kind : Kind) (meta : Meta) (props : Properties) (prune : Bool)
      (children : List Node)

/-- Identity of the underlying heap object. -/
def Node.id : Node → Nat
  | .mk i _ _ _ _ _ => i

/-- Kind tag of the node. -/
def Node.kind : Node → Kind
  | .mk _ k _ _ _ _ => k

/-- Meta data of the node. -/
def Node.meta : Node → Meta
  | .mk _ _ m _ _ _ => m

/-- Property bag of the node. -/
def Node.props : Node → Properties
  | .mk _ _ _ p _ _ => p

/-- Prune flag: a generic walk must not descend into the children. -/
def Node.pruneWalk : Node → Bool
  | .mk _ _ _ _ pr _ => pr

/-- Ordered sequence of owned children. -/
def Node.children : Node → List Node
  | .mk _ _ _ _ _ cs => cs

/-- Whether the node satisfies capability c: a pure function of the kind. -/
def satisfies (n : Node) (c : Cap) : Bool := (traits n.kind).contains c

/-- Model of `std::dynamic_pointer_cast<T>`: a present handle aliasing the
same object when the node satisfies the capability, absent otherwise. -/
def Node.as (n : Node) (c : Cap) : Option Node :=
  if satisfies n c then some n else none

/-- A range of AST nodes, defined by start and end into an existing vector of
nodes. The two iterators of the C++ class become the pair of indices lo and
hi into the base vector; the capability parameter T of the template becomes
the cap field. -/
structure Range where
  base : List Node
  lo : Nat
  hi : Nat
  cap : Cap

/-- Construction of a range covering a whole child vector (the constructor
taking the vector): no element is validated against the capability. -/
def Range.ofNodes (l : List Node) (c : Cap) : Range := Range.mk l 0 l.length c

/-- Construction of a range from an explicit begin and end position pair. -/
def Range.ofSpan (l : List Node) (i j : Nat) (c : Cap) : Range := Range.mk l i j c

/-- Number of elements: the iterator difference of end and begin. -/
def Range.size (r : Range) : Nat := r.hi - r.lo

/-- Whether begin equals end. -/
def Range.isEmpty (r : Range) : Bool := r.lo == r.hi

/-- Dereference of the iterator at offset k from begin (value of
`RangeIterator`): reads the node at that position of the base vector and
performs the dynamic cast, asserting the result; none models a fired
assertion (or an out-of-vector read, undefined in the C++). -/
def Range.derefAt (r : Range) (k : Nat) : Option Node :=
  match r.base[r.lo + k]? with
  | some n => n.as r.cap
  | none => none

/-- The nodes the range covers, in order: the view of base between lo and hi. -/
def Range.span (r : Range) : List Node := (r.base.drop r.lo).take (r.hi - r.lo)

/-- front(): dereference of the begin iterator. -/
def Range.front (r : Range) : Option Node := r.derefAt 0

/-- Indexed access (`Range::operator[]`): asserts that the index is below the
iterator distance from begin to end, then dereferences begin + i. -/
def Range.get (r : Range) (i : Nat) : Option Node :=
  if i < r.size then r.derefAt i else none

/-- Iteration from offset k for n further steps, dereferencing each element
in turn; the handles are collected in visit order. -/
def Range.iterateFrom (r : Range) : Nat → Nat → Option (List Node)
  | _, 0 => some []
  | k, n + 1 =>
    match r.derefAt k with
    | some h => (Range.iterateFrom r (k + 1) n).map (fun t => h :: t)
    | none => none

/-- Full iteration of the range, from begin to end. -/
def Range.iterate (r : Range) : Option (List Node) := r.iterateFrom 0 r.size

/-- Elementwise loop of `Range::operator==`: while the left iterator has not
reached end, both sides are dereferenced (asserting the capability on each)
and the resulting shared-pointer handles are compared, that is, compared by
object identity. -/
def Range.beqElems (r1 r2 : Range) : Nat → Nat → Option Bool
  | _, 0 => some true
  | k, n + 1 =>
    match r1.derefAt k, r2.derefAt k with
    | some a, some b =>
      if a.id == b.id then Range.beqElems r1 r2 (k + 1) n else some false
    | _, _ => none

/-- `Range::operator==`: the short-circuit on `this` being `&other` becomes
the sameObj flag (true only when both sides are one object, hence equal as
values), then the size comparison, then the elementwise loop. -/
def Range.beq (r1 r2 : Range) (sameObj : Bool) : Option Bool :=
  if sameObj then some true
  else if r1.size = r2.size then Range.beqElems r1 r2 0 r1.size
  else some false

mutual
/-- Modelled from the spec: `Node::clone` is not part of the sampled source,
only its call site in `Range::copy` is. Following spec section 4.2 it
produces a deep recursive copy with fresh identity that preserves meta,
properties and the prune flag. Fresh identities are drawn from the supply
counter s, which models allocation of new heap objects. -/
def Node.clone : Node → Nat → Node × Nat
  | .mk _ k m p pr cs, s =>
    let r := Node.cloneList cs (s + 1)
    (.mk s k m p pr r.1, r.2)

/-- Clones of a list of nodes, threading the identity supply left to right. -/
def Node.cloneList : List Node → Nat → List Node × Nat
  | [], s => ([], s)
  | n :: ns, s =>
    let r1 := Node.clone n s
    let r2 := Node.cloneList ns r1.2
    (r1.1 :: r2.1, r2.2)
end

/-- One step stream of `Range::copy`: the loop from begin to end goes through
the iterator arrow on each element, which is the asserted dereference of
`RangeIterator::value` (dynamic cast plus assert, none on failure), and then
pushes a clone of the node the handle designates, threading the identity
supply. -/
def Range.copyFrom (r : Range) : Nat → Nat → Nat → Option (List Node × Nat)
  | _, 0, s => some ([], s)
  | k, n + 1, s =>
    match r.derefAt k with
    | some h =>
      let c := Node.clone h s
      match Range.copyFrom r (k + 1) n c.2 with
      | some (rest, s2) => some (c.1 :: rest, s2)
      | none => none
    | none => none

/-- `Range::copy`: a new owned vector holding a clone of every node the range
covers, in order; every element is dereferenced, asserting its capability,
on the way, so a span element that does not satisfy the capability aborts
the copy (none) instead of producing a vector. -/
def Range.copy (r : Range) (s : Nat) : Option (List Node × Nat) :=
  Range.copyFrom r 0 r.size s

mutual
/-- Content equality of nodes: identity is ignored; kind, meta, properties
and the prune flag must agree, recursively over the children. -/
def Node.contentEq : Node → Node → Bool
  | .mk _ k1 m1 p1 pr1 cs1, .mk _ k2 m2 p2 pr2 cs2 =>
    decide (k1 = k2) && decide (m1 = m2) && decide (p1 = p2) &&
      decide (pr1 = pr2) && Node.contentEqList cs1 cs2

/-- Pairwise content equality of two node lists. -/
def Node.contentEqList : List Node → List Node → Bool
  | [], [] => true
  | a :: l1, b :: l2 => Node.contentEq a b && Node.contentEqList l1 l2
  | _, _ => false
end

mutual
/-- Identities of a node and of all its descendants, in preorder. -/
def Node.ids : Node → List Nat
  | .mk i _ _ _ _ cs => i :: Node.idsList cs

/-- Identities of all nodes of a list of trees. -/
def Node.idsList : List Node → List Nat
  | [] => []
  | n :: ns => Node.ids n ++ Node.idsList ns
end

mutual
/-- Mutation of the child sequence of the heap object with the given
identity: the model of writing through a handle. Nodes whose identity
differs keep their own fields; their subtrees are rewritten recursively. -/
def Node.setChildrenById (t : Nat) (newCs : List Node) : Node → Node
  | .mk i k m p pr cs =>
    if i = t then .mk i k m p pr newCs
    else .mk i k m p pr (Node.setChildrenByIdList t newCs cs)

/-- The same mutation applied to every tree of a list. -/
def Node.setChildrenByIdList (t : Nat) (newCs : List Node) :
    List Node → List Node
  | [] => []
  | n :: ns =>
    Node.setChildrenById t newCs n :: Node.setChildrenByIdList t newCs ns
end

mutual
/-- Modelled from the spec: the generic walker is not part of the sampled
source, only the pruneWalk accessor is declared there. Following spec
section 4.4, the walker visits a node in preorder and then, unless the prune
flag of the node is set, walks the children left to right. -/
def Node.walk : Node → List Node
  | .mk i k m p pr cs =>
    .mk i k m p pr cs :: (if pr then [] else Node.walkList cs)

/-- Preorder walks of a list of trees, concatenated. -/
def Node.walkList : List Node → List Node
  | [] => []
  | n :: ns => Node.walk n ++ Node.walkList ns
end

mutual
/-- Every node occurring in the tree, in preorder, ignoring prune flags. -/
def Node.allNodes : Node → List Node
  | .mk i k m p pr cs => .mk i k m p pr cs :: Node.allNodesList cs

/-- All nodes occurring in a list of trees. -/
def Node.allNodesList : List Node → List Node
  | [] => []
  | n :: ns => Node.allNodes n ++ Node.allNodesList ns
end

/-- Empty meta record used by the concrete examples. -/
def meta0 : Meta := Meta.mk "" ""

/-- First sample expression node. -/
def e0 : Node := .mk 10 .exprLiteral meta0 [] false []

/-- Second sample expression node. -/
def e1 : Node := .mk 11 .exprCall meta0 [] false []

/-- Third sample expression node. -/
def e2 : Node := .mk 12 .exprLiteral meta0 [] false []

/-- A sample child sequence of three expression nodes. -/
def seq3 : List Node := [e0, e1, e2]

/-- A statement node, which does not satisfy the expression capability. -/
def s0 : Node := .mk 20 .stmtBlock meta0 [] false []

/-- A range whose span holds a node that does not satisfy its capability. -/
def badRange : Range := Range.ofNodes [e0, s0] .isExpression

/-- A nested expression node carried as a child of dNode0. -/
def dNode1 : Node := .mk 41 .exprLiteral meta0 [("v", .int 1)] false []

/-- An expression node with one child, for exercising deep cloning. -/
def dNode0 : Node := .mk 40 .exprCall meta0 [] false [dNode1]

/-- Child sequence containing a node with a nested child. -/
def seqD : List Node := [dNode0, e2]

/-- Expression range over seqD, for the clone witness. -/
def rangeD : Range := Range.ofNodes seqD .isExpression

/-- An inner pruning node nested below another pruning node. -/
def cInner : Node := .mk 2 .stmtBlock meta0 [] true [e0]

/-- A pruning root holding cInner: the walk stops right below the root. -/
def cRoot : Node := .mk 1 .stmtBlock meta0 [] true [cInner]

/-- First child of the pruned node of the walker example. -/
def wc1 : Node := .mk 31 .stmtBlock meta0 [] false []

/-- Second child of the pruned node of the walker example. -/
def wc2 : Node := .mk 32 .stmtBlock meta0 [] false []

/-- A pruning node with two children, visited from an unpruned root. -/
def wPruned : Node := .mk 30 .stmtBlock meta0 [] true [wc1, wc2]

/-- An unpruned root above wPruned. -/
def wRoot : Node := .mk 29 .stmtBlock meta0 [] false [wPruned]

end Hilti

namespace DocGen

/-- The namespace grouping table of the documentation generator
(`NamespaceMappings` in spicy-doc-to-rst). -/
def NamespaceMappings : List (String × String) :=
  [("signed_integer", "integer"),
   ("unsigned_integer", "integer"),
   ("struct_", "struct")]

/-- Lookup of the documentation namespace of a kind name: the grouped
namespace when the table lists the name, the name itself otherwise
(`namespace(ns)` in spicy-doc-to-rst; renamed as namespace is reserved). -/
def nspaceOf (ns : String) : String := (NamespaceMappings.lookup ns).getD ns

/-- One operand record of a parsed metadata entry (class `Operand`). -/
structure Operand where
  const : Option String
  mutable : Option String
  dflt : Option String
  id : Option String
  optional : Option String
  doc : Option String
  type : Option String
deriving DecidableEq

/-- A raw operator metadata entry as read from the JSON input. -/
structure RawOp where
  doc : String
  kind : String
  nspace : String
  operands : List Operand
  operator : String
  rtype : String
  commutative : Bool
deriving DecidableEq

/-- An operator entry after construction (class `Operator.__init__`): the
namespace is passed through the grouping lookup, everything else is copied. -/
structure Operator where
  doc : String
  kind : String
  nspace : String
  operands : List Operand
  operator : String
  rtype : String
  commutative : Bool
deriving DecidableEq

/-- Construction of an `Operator` from a raw entry. -/
def Operator.ofRaw (m : RawOp) : Operator :=
  Operator.mk m.doc m.kind (nspaceOf m.nspace) m.operands m.operator m.rtype
    m.commutative

/-- Documentation string given to the generated inverse-membership entry. -/
def invDoc : String := "Performs the inverse of the corresponding ``in`` operation."

/-- The operator entries the main loop adds for one metadata entry, as pairs
of dictionary key (the namespace) and operator: a MemberCall entry goes to
the methods dictionary instead, any other entry is recorded, and an In entry
additionally generates an InInv copy that differs only in kind and doc. -/
def operatorEntriesFor (m : RawOp) : List (String × Operator) :=
  if m.kind == "MemberCall" then []
  else
    let m2 := Operator.ofRaw m
    if m2.kind == "In" then
      [(m2.nspace, m2),
       (m2.nspace,
        Operator.mk invDoc "InInv" m2.nspace m2.operands m2.operator m2.rtype
          m2.commutative)]
    else [(m2.nspace, m2)]

/-- A concrete In metadata entry, as the generator would read it. -/
def rawIn : RawOp :=
  RawOp.mk "Checks membership." "In" "signed_integer" [] "in" "bool" false

end DocGen

/-- C8: the documentation-namespace lookup maps both the signed-integer and
the unsigned-integer kind names to the single namespace "integer", and maps
every name outside its grouping table to itself unchanged. -/
theorem c8_namespace_grouping (s : String)
    (h : ∀ p ∈ DocGen.NamespaceMappings, p.1 ≠ s) :
    DocGen.nspaceOf "signed_integer" = "integer" ∧
    DocGen.nspaceOf "unsigned_integer" = "integer" ∧
    DocGen.nspaceOf s = s := by
  have e1 : (s == "signed_integer") = false :=
    beq_eq_false_iff_ne.mpr
      (fun he => h ("signed_integer", "integer") (by simp [DocGen.NamespaceMappings]) he.symm)
  have e2 : (s == "unsigned_integer") = false :=
    beq_eq_false_iff_ne.mpr
      (fun he => h ("unsigned_integer", "integer") (by simp [DocGen.NamespaceMappings]) he.symm)
  have e3 : (s == "struct_") = false :=
    beq_eq_false_iff_ne.mpr
      (fun he => h ("struct_", "struct") (by simp [DocGen.NamespaceMappings]) he.symm)
  refine ⟨by decide, by decide, ?_⟩
  simp [DocGen.nspaceOf, DocGen.NamespaceMappings, List.lookup, e1, e2, e3]

/-- Witness for C8 at the concrete name "bytes", which the table does not list. -/
theorem c8_namespace_grouping_witness :
    (∀ p ∈ DocGen.NamespaceMappings, p.1 ≠ "bytes") ∧
    (DocGen.nspaceOf "signed_integer" = "integer" ∧
     DocGen.nspaceOf "unsigned_integer" = "integer" ∧
     DocGen.nspaceOf "bytes" = "bytes") :=
  ⟨by decide, c8_namespace_grouping "bytes" (by decide)⟩

open Hilti

/-- Bridge lemma: within bounds, reading the span at offset k is reading the
base vector at position lo + k. -/
theorem Range.span_getElem (r : Range) (k : Nat) (hk : k < Range.size r) :
    (Range.span r)[k]? = r.base[r.lo + k]? := by
  have hk2 : k < r.hi - r.lo := hk
  unfold Range.span
  rw [List.getElem?_take_of_lt hk2, List.getElem?_drop]

/-- C10: an In metadata entry makes the generator emit, into the same
namespace, an additional InInv entry identical to it up to the kind and the
fixed inverse documentation string; no other kind triggers the generation. -/
theorem c10_in_inv_generation (m : DocGen.RawOp) :
    (m.kind = "In" →
      ∃ inv : DocGen.Operator,
        DocGen.operatorEntriesFor m =
          [((DocGen.Operator.ofRaw m).nspace, DocGen.Operator.ofRaw m),
           ((DocGen.Operator.ofRaw m).nspace, inv)] ∧
        inv.kind = "InInv" ∧ inv.doc = DocGen.invDoc ∧
        inv.nspace = (DocGen.Operator.ofRaw m).nspace ∧
        inv.operands = (DocGen.Operator.ofRaw m).operands ∧
        inv.operator = (DocGen.Operator.ofRaw m).operator ∧
        inv.rtype = (DocGen.Operator.ofRaw m).rtype ∧
        inv.commutative = (DocGen.Operator.ofRaw m).commutative) ∧
    (m.kind ≠ "In" →
      DocGen.operatorEntriesFor m =
        if m.kind == "MemberCall" then []
        else [((DocGen.Operator.ofRaw m).nspace, DocGen.Operator.ofRaw m)]) := by
  constructor
  · intro hk
    refine ⟨DocGen.Operator.mk DocGen.invDoc "InInv"
      (DocGen.Operator.ofRaw m).nspace (DocGen.Operator.ofRaw m).operands
      (DocGen.Operator.ofRaw m).operator (DocGen.Operator.ofRaw m).rtype
      (DocGen.Operator.ofRaw m).commutative,
      ?_, rfl, rfl, rfl, rfl, rfl, rfl, rfl⟩
    simp [DocGen.operatorEntriesFor, DocGen.Operator.ofRaw, hk]
  · intro hk
    by_cases hmc : m.kind = "MemberCall"
    · simp [DocGen.operatorEntriesFor, hmc]
    · simp [DocGen.operatorEntriesFor, DocGen.Operator.ofRaw, hmc, hk]

/-- Witness for C10 at a concrete In entry. -/
theorem c10_in_inv_generation_witness :
    DocGen.rawIn.kind = "In" ∧
    (∃ inv : DocGen.Operator,
        DocGen.operatorEntriesFor DocGen.rawIn =
          [((DocGen.Operator.ofRaw DocGen.rawIn).nspace,
            DocGen.Operator.ofRaw DocGen.rawIn),
           ((DocGen.Operator.ofRaw DocGen.rawIn).nspace, inv)] ∧
        inv.kind = "InInv" ∧ inv.doc = DocGen.invDoc ∧
        inv.nspace = (DocGen.Operator.ofRaw DocGen.rawIn).nspace ∧
        inv.operands = (DocGen.Operator.ofRaw DocGen.rawIn).operands ∧
        inv.operator = (DocGen.Operator.ofRaw DocGen.rawIn).operator ∧
        inv.rtype = (DocGen.Operator.ofRaw DocGen.rawIn).rtype ∧
        inv.commutative = (DocGen.Operator.ofRaw DocGen.rawIn).commutative) :=
  ⟨rfl, (c10_in_inv_generation DocGen.rawIn).1 rfl⟩

/-- C1: building a range over any child vector succeeds and covers the whole
vector, with no capability validation at construction; dereferencing an
element that satisfies the capability yields the present handle for exactly
that element, and dereferencing one that does not fails the assertion (no
handle) instead of yielding a null handle. -/
theorem c1_deferred_validation (l : List Node) (c : Cap) (i : Nat)
    (h : i < l.length) :
    (Range.size (Range.ofNodes l c) = l.length) ∧
    (satisfies l[i] c = true →
      Range.derefAt (Range.ofNodes l c) i = some l[i]) ∧
    (satisfies l[i] c = false →
      Range.derefAt (Range.ofNodes l c) i = none) := by
  refine ⟨by simp [Range.ofNodes, Range.size], ?_, ?_⟩
  · intro hs
    simp [Range.ofNodes, Range.derefAt, List.getElem?_eq_getElem h, Node.as, hs]
  · intro hs
    simp [Range.ofNodes, Range.derefAt, List.getElem?_eq_getElem h, Node.as, hs]

/-- Witness for C1 over a two-element vector holding an expression node and
a statement node, at index 0. -/
theorem c1_deferred_validation_witness :
    0 < ([e0, s0] : List Node).length ∧
    ((Range.size (Range.ofNodes [e0, s0] .isExpression) =
        ([e0, s0] : List Node).length) ∧
     (satisfies ([e0, s0] : List Node)[0] .isExpression = true →
        Range.derefAt (Range.ofNodes [e0, s0] .isExpression) 0 =
          some ([e0, s0] : List Node)[0]) ∧
     (satisfies ([e0, s0] : List Node)[0] .isExpression = false →
        Range.derefAt (Range.ofNodes [e0, s0] .isExpression) 0 = none)) :=
  ⟨by simp, c1_deferred_validation [e0, s0] .isExpression 0 (by simp)⟩

/-- C5: indexed access asserts the index is within bounds. Below the size it
returns the handle of the element at that offset of the span; at or above
the size the assertion fires and no value is returned. -/
theorem c5_index_access_asserts (r : Range) (i : Nat)
    (hwf : r.hi ≤ r.base.length)
    (hsat : ∀ n ∈ Range.span r, satisfies n r.cap = true) :
    (∀ _ : i < Range.size r,
        ∃ n, (Range.span r)[i]? = some n ∧ Range.get r i = some n) ∧
    (Range.size r ≤ i → Range.get r i = none) := by
  constructor
  · intro h
    have hb : r.lo + i < r.base.length := by
      have hh : i < r.hi - r.lo := h
      omega
    have hget : r.base[r.lo + i]? = some (r.base[r.lo + i]) :=
      List.getElem?_eq_getElem hb
    have hspan : (Range.span r)[i]? = some (r.base[r.lo + i]) := by
      rw [Range.span_getElem r i h]; exact hget
    refine ⟨r.base[r.lo + i], hspan, ?_⟩
    have hmem : r.base[r.lo + i] ∈ Range.span r := List.getElem?_mem hspan
    have hs := hsat _ hmem
    simp [Range.get, h, Range.derefAt, hget, Node.as, hs]
  · intro h
    simp [Range.get, Nat.not_lt.mpr h]

/-- Witness for C5 over the three-expression sequence at index 1. -/
theorem c5_index_access_asserts_witness :
    (Range.ofNodes seq3 .isExpression).hi ≤
      (Range.ofNodes seq3 .isExpression).base.length ∧
    (∀ n ∈ Range.span (Range.ofNodes seq3 .isExpression),
        satisfies n (Range.ofNodes seq3 .isExpression).cap = true) ∧
    ((∀ _ : 1 < Range.size (Range.ofNodes seq3 .isExpression),
        ∃ n, (Range.span (Range.ofNodes seq3 .isExpression))[1]? = some n ∧
          Range.get (Range.ofNodes seq3 .isExpression) 1 = some n) ∧
     (Range.size (Range.ofNodes seq3 .isExpression) ≤ 1 →
        Range.get (Range.ofNodes seq3 .isExpression) 1 = none)) :=
  ⟨by decide, by decide,
   c5_index_access_asserts (Range.ofNodes seq3 .isExpression) 1 (by decide)
     (by decide)⟩

/-- C6: a range over a three-element child sequence of expression nodes has
size 3; the range narrowed to the sub-span from 1 to 3 has size 2 and its
front is the handle of the element at index 1 of the original sequence. -/
theorem c6_three_element_scenario :
    Range.size (Range.ofNodes seq3 .isExpression) = 3 ∧
    Range.size (Range.ofSpan seq3 1 3 .isExpression) = 2 ∧
    Range.front (Range.ofSpan seq3 1 3 .isExpression) = some e1 :=
  ⟨rfl, rfl, rfl⟩

/-- C9: comparing a range with itself takes the identity short-circuit and
returns true without dereferencing any element; in particular it succeeds on
a range whose span holds an element that does not satisfy the capability,
even though iterating (hence dereferencing) that same range fails the
capability assertion. -/
theorem c9_self_comparison_short_circuit :
    (∀ r : Range, Range.beq r r true = some true) ∧
    Range.beq badRange badRange true = some true ∧
    Range.iterate badRange = none :=
  ⟨fun _ => rfl, rfl, rfl⟩

/-- Iteration lemma: from offset k, iterating n further elements of a range
whose span satisfies the capability yields exactly the base elements from
position lo + k onward, in order. -/
theorem Range.iterateFrom_sat (r : Range) (hwf : r.hi ≤ r.base.length)
    (hsat : ∀ m ∈ Range.span r, satisfies m r.cap = true) :
    ∀ (n k : Nat), r.lo + k + n ≤ r.hi →
      Range.iterateFrom r k n = some ((r.base.drop (r.lo + k)).take n) := by
  intro n
  induction n with
  | zero => intro k hb; simp [Range.iterateFrom]
  | succ n ih =>
    intro k hb
    have hklt : k < Range.size r := by
      have : k < r.hi - r.lo := by omega
      exact this
    have hbase : r.lo + k < r.base.length := by omega
    have hget : r.base[r.lo + k]? = some (r.base[r.lo + k]) :=
      List.getElem?_eq_getElem hbase
    have hmem : r.base[r.lo + k] ∈ Range.span r := by
      apply List.getElem?_mem
      rw [Range.span_getElem r k hklt]; exact hget
    have hs := hsat _ hmem
    have hderef : Range.derefAt r k = some (r.base[r.lo + k]) := by
      simp [Range.derefAt, hget, Node.as, hs]
    have hrec := ih (k + 1) (by omega)
    rw [Range.iterateFrom, hderef, hrec]
    rw [List.drop_eq_getElem_cons hbase, List.take_succ_cons]
    rfl

/-- C2: iterating a capability-satisfying range built over the sub-span from
i to j of a child sequence S yields exactly the handles of the elements of S
at positions i through j - 1, in order, with no reordering, duplication or
omission. -/
theorem c2_iteration_preserves_order (S : List Node) (c : Cap) (i j : Nat)
    (hij : i ≤ j) (hj : j ≤ S.length)
    (hsat : ∀ m ∈ Range.span (Range.ofSpan S i j c), satisfies m c = true) :
    Range.iterate (Range.ofSpan S i j c) = some ((S.drop i).take (j - i)) := by
  have h := Range.iterateFrom_sat (Range.ofSpan S i j c) hj hsat (j - i) 0
    (by simp [Range.ofSpan]; omega)
  unfold Range.iterate
  have hsz : Range.size (Range.ofSpan S i j c) = j - i := rfl
  rw [hsz, h]
  simp [Range.ofSpan]

/-- Witness for C2: the sub-span from 1 to 3 of the three-expression
sequence. -/
theorem c2_iteration_preserves_order_witness :
    1 ≤ 3 ∧ 3 ≤ seq3.length ∧
    (∀ m ∈ Range.span (Range.ofSpan seq3 1 3 .isExpression),
        satisfies m .isExpression = true) ∧
    Range.iterate (Range.ofSpan seq3 1 3 .isExpression) =
      some ((seq3.drop 1).take (3 - 1)) :=
  ⟨by decide, by decide, by decide,
   c2_iteration_preserves_order seq3 .isExpression 1 3 (by decide) (by decide)
     (by decide)⟩

/-- Comparison-loop lemma: over in-bounds, capability-satisfying stretches,
the elementwise loop of the range equality returns exactly whether the
identities of the compared elements agree pairwise. -/
theorem Range.beqElems_sat (r1 r2 : Range)
    (h1 : r1.hi ≤ r1.base.length) (h2 : r2.hi ≤ r2.base.length)
    (hs1 : ∀ m ∈ Range.span r1, satisfies m r1.cap = true)
    (hs2 : ∀ m ∈ Range.span r2, satisfies m r2.cap = true) :
    ∀ (n k : Nat), r1.lo + k + n ≤ r1.hi → r2.lo + k + n ≤ r2.hi →
      Range.beqElems r1 r2 k n =
        some (decide (((r1.base.drop (r1.lo + k)).take n).map Node.id =
                      ((r2.base.drop (r2.lo + k)).take n).map Node.id)) := by
  intro n
  induction n with
  | zero => intro k hb1 hb2; simp [Range.beqElems]
  | succ n ih =>
    intro k hb1 hb2
    have hklt1 : k < Range.size r1 := by
      have hx : k < r1.hi - r1.lo := by omega
      exact hx
    have hklt2 : k < Range.size r2 := by
      have hx : k < r2.hi - r2.lo := by omega
      exact hx
    have hbase1 : r1.lo + k < r1.base.length := by omega
    have hbase2 : r2.lo + k < r2.base.length := by omega
    have hget1 : r1.base[r1.lo + k]? = some (r1.base[r1.lo + k]) :=
      List.getElem?_eq_getElem hbase1
    have hget2 : r2.base[r2.lo + k]? = some (r2.base[r2.lo + k]) :=
      List.getElem?_eq_getElem hbase2
    have hmem1 : r1.base[r1.lo + k] ∈ Range.span r1 := by
      apply List.getElem?_mem
      rw [Range.span_getElem r1 k hklt1]; exact hget1
    have hmem2 : r2.base[r2.lo + k] ∈ Range.span r2 := by
      apply List.getElem?_mem
      rw [Range.span_getElem r2 k hklt2]; exact hget2
    have hd1 : Range.derefAt r1 k = some (r1.base[r1.lo + k]) := by
      simp [Range.derefAt, hget1, Node.as, hs1 _ hmem1]
    have hd2 : Range.derefAt r2 k = some (r2.base[r2.lo + k]) := by
      simp [Range.derefAt, hget2, Node.as, hs2 _ hmem2]
    rw [Range.beqElems]
    simp only [hd1, hd2]
    rw [List.drop_eq_getElem_cons hbase1, List.drop_eq_getElem_cons hbase2,
      List.take_succ_cons, List.take_succ_cons, List.map_cons, List.map_cons]
    by_cases hid :
        (r1.base[r1.lo + k]).id = (r2.base[r2.lo + k]).id
    · rw [if_pos (by simp [hid]), ih (k + 1) (by omega) (by omega)]
      have ha1 : r1.lo + (k + 1) = r1.lo + k + 1 := by omega
      have ha2 : r2.lo + (k + 1) = r2.lo + k + 1 := by omega
      rw [ha1, ha2]
      congr 1
      apply decide_eq_decide.mpr
      simp [hid]
    · rw [if_neg (by simp [hid])]
      have hP : ¬ ((r1.base[r1.lo + k]).id ::
            ((r1.base.drop (r1.lo + k + 1)).take n).map Node.id =
          (r2.base[r2.lo + k]).id ::
            ((r2.base.drop (r2.lo + k + 1)).take n).map Node.id) := by
        intro he
        injection he with h1x h2x
        exact hid h1x
      rw [decide_eq_false hP]

/-- C4: for well-formed, capability-satisfying ranges, range equality returns
true exactly when the two ranges have the same length and their elements are
pairwise equal as nodes, that is, handle-equal by object identity (the form
of node equality that comparing the dereferenced shared pointers computes);
the same-object short-circuit is consistent with this reading. -/
theorem c4_equality_matches_pairwise (r1 r2 : Range) (sameObj : Bool)
    (hself : sameObj = true → r1 = r2)
    (hlo1 : r1.lo ≤ r1.hi) (h1 : r1.hi ≤ r1.base.length)
    (hlo2 : r2.lo ≤ r2.hi) (h2 : r2.hi ≤ r2.base.length)
    (hs1 : ∀ m ∈ Range.span r1, satisfies m r1.cap = true)
    (hs2 : ∀ m ∈ Range.span r2, satisfies m r2.cap = true) :
    Range.beq r1 r2 sameObj = some true ↔
      (Range.size r1 = Range.size r2 ∧
       (Range.span r1).map Node.id = (Range.span r2).map Node.id) := by
  cases sameObj with
  | true =>
    have hr := hself rfl
    subst hr
    simp [Range.beq]
  | false =>
    by_cases hsz : Range.size r1 = Range.size r2
    · have hb1 : r1.lo + 0 + Range.size r1 ≤ r1.hi := by
        have hx : Range.size r1 = r1.hi - r1.lo := rfl
        omega
      have hb2 : r2.lo + 0 + Range.size r1 ≤ r2.hi := by
        have hx : Range.size r1 = Range.size r2 := hsz
        have hy : Range.size r2 = r2.hi - r2.lo := rfl
        omega
      have h := Range.beqElems_sat r1 r2 h1 h2 hs1 hs2 (Range.size r1) 0 hb1 hb2
      have hspan1 :
          (r1.base.drop (r1.lo + 0)).take (Range.size r1) = Range.span r1 := by
        unfold Range.span; rfl
      have hspan2 :
          (r2.base.drop (r2.lo + 0)).take (Range.size r1) = Range.span r2 := by
        unfold Range.span; rw [hsz]; rfl
      rw [hspan1, hspan2] at h
      have hbeq : Range.beq r1 r2 false = Range.beqElems r1 r2 0 (Range.size r1) := by
        unfold Range.beq
        rw [if_neg (by simp), if_pos hsz]
      rw [hbeq, h]
      simp [hsz]
    · have hbeq : Range.beq r1 r2 false = some false := by
        unfold Range.beq
        rw [if_neg (by simp), if_neg hsz]
      rw [hbeq]
      simp [hsz]

/-- Witness for C4: the full range over seq3 compared against the span from
0 to 3 over the same vector, as distinct objects. -/
theorem c4_equality_matches_pairwise_witness :
    (false = true → Range.ofNodes seq3 .isExpression =
        Range.ofSpan seq3 0 3 .isExpression) ∧
    (Range.beq (Range.ofNodes seq3 .isExpression)
        (Range.ofSpan seq3 0 3 .isExpression) false = some true ↔
      (Range.size (Range.ofNodes seq3 .isExpression) =
          Range.size (Range.ofSpan seq3 0 3 .isExpression) ∧
       (Range.span (Range.ofNodes seq3 .isExpression)).map Node.id =
         (Range.span (Range.ofSpan seq3 0 3 .isExpression)).map Node.id)) :=
  ⟨by simp,
   c4_equality_matches_pairwise (Range.ofNodes seq3 .isExpression)
     (Range.ofSpan seq3 0 3 .isExpression) false (by simp) (by decide)
     (by decide) (by decide) (by decide) (by decide) (by decide)⟩

mutual
/-- The identity supply never decreases across a clone. -/
theorem clone_snd_ge : ∀ (n : Node) (s : Nat), s ≤ (Node.clone n s).2
  | .mk i k m p pr cs, s => by
    have h := cloneList_snd_ge cs (s + 1)
    simp only [Node.clone]
    omega

/-- The identity supply never decreases across a list clone. -/
theorem cloneList_snd_ge : ∀ (l : List Node) (s : Nat), s ≤ (Node.cloneList l s).2
  | [], s => by simp [Node.cloneList]
  | n :: ns, s => by
    have h1 := clone_snd_ge n s
    have h2 := cloneList_snd_ge ns (Node.clone n s).2
    simp only [Node.cloneList]
    omega
end

mutual
/-- Every identity of a cloned tree is fresh: drawn from the supply interval. -/
theorem clone_ids_bounds : ∀ (n : Node) (s : Nat) (i : Nat),
    i ∈ Node.ids (Node.clone n s).1 → s ≤ i ∧ i < (Node.clone n s).2
  | .mk j k m p pr cs, s, i => by
    intro hi
    simp only [Node.clone, Node.ids, List.mem_cons] at hi
    rcases hi with rfl | hi
    · have h := cloneList_snd_ge cs (i + 1)
      simp only [Node.clone]
      omega
    · have h := cloneList_ids_bounds cs (s + 1) i hi
      simp only [Node.clone]
      omega

/-- Every identity of a cloned list of trees is fresh. -/
theorem cloneList_ids_bounds : ∀ (l : List Node) (s : Nat) (i : Nat),
    i ∈ Node.idsList (Node.cloneList l s).1 → s ≤ i ∧ i < (Node.cloneList l s).2
  | [], s, i => by
    intro hi
    simp [Node.cloneList, Node.idsList] at hi
  | n :: ns, s, i => by
    intro hi
    simp only [Node.cloneList, Node.idsList, List.mem_append] at hi
    simp only [Node.cloneList]
    rcases hi with hi | hi
    · have h := clone_ids_bounds n s i hi
      have h2 := cloneList_snd_ge ns (Node.clone n s).2
      omega
    · have h := cloneList_ids_bounds ns (Node.clone n s).2 i hi
      have h2 := clone_snd_ge n s
      omega
end

mutual
/-- A clone is content-equal to its original. -/
theorem clone_contentEq : ∀ (n : Node) (s : Nat),
    Node.contentEq (Node.clone n s).1 n = true
  | .mk i k m p pr cs, s => by
    have h := cloneList_contentEq cs (s + 1)
    simp [Node.clone, Node.contentEq, h]

/-- A cloned list of trees is pairwise content-equal to the original list. -/
theorem cloneList_contentEq : ∀ (l : List Node) (s : Nat),
    Node.contentEqList (Node.cloneList l s).1 l = true
  | [], s => by simp [Node.cloneList, Node.contentEqList]
  | n :: ns, s => by
    have h1 := clone_contentEq n s
    have h2 := cloneList_contentEq ns (Node.clone n s).2
    simp [Node.cloneList, Node.contentEqList, h1, h2]
end

mutual
/-- Mutation addressed at an identity absent from a tree leaves it unchanged. -/
theorem setChildrenById_not_mem : ∀ (n : Node) (t : Nat) (newCs : List Node),
    t ∉ Node.ids n → Node.setChildrenById t newCs n = n
  | .mk i k m p pr cs, t, newCs => by
    intro ht
    simp only [Node.ids, List.mem_cons, not_or] at ht
    have h := setChildrenByIdList_not_mem cs t newCs ht.2
    simp only [Node.setChildrenById]
    rw [if_neg (fun he => ht.1 he.symm), h]

/-- Mutation addressed at an identity absent from a list of trees leaves the
whole list unchanged. -/
theorem setChildrenByIdList_not_mem :
    ∀ (l : List Node) (t : Nat) (newCs : List Node),
      t ∉ Node.idsList l → Node.setChildrenByIdList t newCs l = l
  | [], t, newCs => by
    intro ht
    simp [Node.setChildrenByIdList]
  | n :: ns, t, newCs => by
    intro ht
    simp only [Node.idsList, List.mem_append, not_or] at ht
    have h1 := setChildrenById_not_mem n t newCs ht.1
    have h2 := setChildrenByIdList_not_mem ns t newCs ht.2
    simp only [Node.setChildrenByIdList]
    rw [h1, h2]
end

/-- A cloned list has the length of its original. -/
theorem cloneList_length : ∀ (l : List Node) (s : Nat),
    (Node.cloneList l s).1.length = l.length
  | [], s => by simp [Node.cloneList]
  | n :: ns, s => by
    have h := cloneList_length ns (Node.clone n s).2
    simp [Node.cloneList, h]

/-- Copy-loop lemma: over an in-bounds, capability-satisfying stretch, the
copy loop passes every dereference assertion and produces exactly the clones
of the covered elements, threading the identity supply. -/
theorem Range.copyFrom_sat (r : Range) (hwf : r.hi ≤ r.base.length)
    (hsat : ∀ m ∈ Range.span r, satisfies m r.cap = true) :
    ∀ (n k s : Nat), r.lo + k + n ≤ r.hi →
      Range.copyFrom r k n s =
        some (Node.cloneList ((r.base.drop (r.lo + k)).take n) s) := by
  intro n
  induction n with
  | zero => intro k s hb; simp [Range.copyFrom, Node.cloneList]
  | succ n ih =>
    intro k s hb
    have hklt : k < Range.size r := by
      have hx : k < r.hi - r.lo := by omega
      exact hx
    have hbase : r.lo + k < r.base.length := by omega
    have hget : r.base[r.lo + k]? = some (r.base[r.lo + k]) :=
      List.getElem?_eq_getElem hbase
    have hmem : r.base[r.lo + k] ∈ Range.span r := by
      apply List.getElem?_mem
      rw [Range.span_getElem r k hklt]; exact hget
    have hs := hsat _ hmem
    have hderef : Range.derefAt r k = some (r.base[r.lo + k]) := by
      simp [Range.derefAt, hget, Node.as, hs]
    have hrec := ih (k + 1) (Node.clone (r.base[r.lo + k]) s).2 (by omega)
    rw [Range.copyFrom]
    simp only [hderef, hrec]
    rw [List.drop_eq_getElem_cons hbase, List.take_succ_cons]
    simp only [Node.cloneList]
    rfl

/-- C3: on a range whose span satisfies its capability (so the per-element
dereference assertions inside the copy loop cannot fire) and with a supply
of identities fresh for the underlying vector, copy() returns a new owned
sequence, of the length of the span, whose elements are content-equal clones
of the covered nodes (preserving kind, meta, properties and prune flag
recursively), whose identities are all fresh, hence disjoint from every
identity reachable in the original vector, and such that mutating the
children of any clone, addressed by its identity, leaves the original vector
exactly unchanged. -/
theorem c3_copy_deep_independent_clones (r : Range) (s : Nat)
    (hlo : r.lo ≤ r.hi) (hwf : r.hi ≤ r.base.length)
    (hsat : ∀ m ∈ Range.span r, satisfies m r.cap = true)
    (hfresh : ∀ i ∈ Node.idsList r.base, i < s) :
    ∃ cs s2, Range.copy r s = some (cs, s2) ∧
      Node.contentEqList cs (Range.span r) = true ∧
      cs.length = (Range.span r).length ∧
      (∀ i ∈ Node.idsList cs, s ≤ i) ∧
      (∀ i ∈ Node.idsList cs, i ∉ Node.idsList r.base) ∧
      (∀ t ∈ Node.idsList cs, ∀ newCs : List Node,
          Node.setChildrenByIdList t newCs r.base = r.base) := by
  have hcopy : Range.copy r s = some (Node.cloneList (Range.span r) s) := by
    unfold Range.copy
    have h := Range.copyFrom_sat r hwf hsat (Range.size r) 0 s (by
      have hx : Range.size r = r.hi - r.lo := rfl
      omega)
    rw [h]
    rfl
  refine ⟨(Node.cloneList (Range.span r) s).1,
    (Node.cloneList (Range.span r) s).2, ?_,
    cloneList_contentEq (Range.span r) s, cloneList_length (Range.span r) s,
    ?_, ?_, ?_⟩
  · rw [hcopy]
  · intro i hi
    exact (cloneList_ids_bounds (Range.span r) s i hi).1
  · intro i hi hib
    have h1 := (cloneList_ids_bounds (Range.span r) s i hi).1
    have h2 := hfresh i hib
    omega
  · intro t ht newCs
    apply setChildrenByIdList_not_mem
    intro htb
    have h1 := (cloneList_ids_bounds (Range.span r) s t ht).1
    have h2 := hfresh t htb
    omega

/-- Witness for C3: copying the expression range over seqD (which holds a
node with a nested child) with supply 100. -/
theorem c3_copy_deep_independent_clones_witness :
    rangeD.lo ≤ rangeD.hi ∧ rangeD.hi ≤ rangeD.base.length ∧
    (∀ m ∈ Range.span rangeD, satisfies m rangeD.cap = true) ∧
    (∀ i ∈ Node.idsList rangeD.base, i < 100) ∧
    (∃ cs s2, Range.copy rangeD 100 = some (cs, s2) ∧
      Node.contentEqList cs (Range.span rangeD) = true ∧
      cs.length = (Range.span rangeD).length ∧
      (∀ i ∈ Node.idsList cs, 100 ≤ i) ∧
      (∀ i ∈ Node.idsList cs, i ∉ Node.idsList rangeD.base) ∧
      (∀ t ∈ Node.idsList cs, ∀ newCs : List Node,
          Node.setChildrenByIdList t newCs rangeD.base = rangeD.base)) :=
  ⟨by decide, by decide, by decide, by decide,
   c3_copy_deep_independent_clones rangeD 100 (by decide) (by decide)
     (by decide) (by decide)⟩

/-- The walk always visits its root first. -/
theorem self_mem_walk : ∀ t : Node, t ∈ Node.walk t
  | .mk i k m p pr cs => by simp [Node.walk]

mutual
/-- Every node the walk visits occurs in the tree. -/
theorem walk_mem_allNodes : ∀ (t x : Node),
    x ∈ Node.walk t → x ∈ Node.allNodes t
  | .mk i k m p pr cs, x => by
    intro hx
    simp only [Node.walk, List.mem_cons] at hx
    simp only [Node.allNodes, List.mem_cons]
    rcases hx with rfl | hx
    · exact Or.inl rfl
    · cases pr with
      | true => simp at hx
      | false =>
        exact Or.inr (walkList_mem_allNodesList cs x (by simpa using hx))

/-- Every node a list walk visits occurs in one of the trees. -/
theorem walkList_mem_allNodesList : ∀ (l : List Node) (x : Node),
    x ∈ Node.walkList l → x ∈ Node.allNodesList l
  | [], x => by intro hx; simp [Node.walkList] at hx
  | n :: ns, x => by
    intro hx
    simp only [Node.walkList, List.mem_append] at hx
    simp only [Node.allNodesList, List.mem_append]
    rcases hx with hx | hx
    · exact Or.inl (walk_mem_allNodes n x hx)
    · exact Or.inr (walkList_mem_allNodesList ns x hx)
end

mutual
/-- Occurrence in a tree is transitive through intermediate nodes. -/
theorem mem_allNodes_trans : ∀ (t n x : Node),
    n ∈ Node.allNodes t → x ∈ Node.allNodes n → x ∈ Node.allNodes t
  | .mk i k m p pr cs, n, x => by
    intro hn hx
    simp only [Node.allNodes, List.mem_cons] at hn ⊢
    rcases hn with rfl | hn
    · simpa [Node.allNodes] using hx
    · exact Or.inr (mem_allNodesList_trans cs n x hn hx)

/-- Occurrence in a list of trees is transitive through intermediate nodes. -/
theorem mem_allNodesList_trans : ∀ (l : List Node) (n x : Node),
    n ∈ Node.allNodesList l → x ∈ Node.allNodes n → x ∈ Node.allNodesList l
  | [], n, x => by intro hn hx; simp [Node.allNodesList] at hn
  | u :: us, n, x => by
    intro hn hx
    simp only [Node.allNodesList, List.mem_append] at hn ⊢
    rcases hn with hn | hn
    · exact Or.inl (mem_allNodes_trans u n x hn hx)
    · exact Or.inr (mem_allNodesList_trans us n x hn hx)
end

/-- Every tree occurs in its own node listing. -/
theorem self_mem_allNodes : ∀ t : Node, t ∈ Node.allNodes t
  | .mk i k m p pr cs => by simp [Node.allNodes]

/-- A member of a list of trees occurs in the node listing of the list. -/
theorem mem_allNodesList_of_mem : ∀ (l : List Node) (u : Node),
    u ∈ l → u ∈ Node.allNodesList l
  | [], u => by intro hu; simp at hu
  | u2 :: us, u => by
    intro hu
    simp only [Node.allNodesList, List.mem_append]
    rcases List.mem_cons.mp hu with rfl | hu
    · exact Or.inl (self_mem_allNodes u)
    · exact Or.inr (mem_allNodesList_of_mem us u hu)

mutual
/-- The identity of every node occurring in a tree is listed by ids. -/
theorem id_mem_ids_of_mem_allNodes : ∀ (t x : Node),
    x ∈ Node.allNodes t → x.id ∈ Node.ids t
  | .mk i k m p pr cs, x => by
    intro hx
    simp only [Node.allNodes, List.mem_cons] at hx
    simp only [Node.ids, List.mem_cons]
    rcases hx with rfl | hx
    · exact Or.inl rfl
    · exact Or.inr (id_mem_idsList_of_mem_allNodesList cs x hx)

/-- The identity of every node occurring in a list of trees is listed. -/
theorem id_mem_idsList_of_mem_allNodesList : ∀ (l : List Node) (x : Node),
    x ∈ Node.allNodesList l → x.id ∈ Node.idsList l
  | [], x => by intro hx; simp [Node.allNodesList] at hx
  | u :: us, x => by
    intro hx
    simp only [Node.allNodesList, List.mem_append] at hx
    simp only [Node.idsList, List.mem_append]
    rcases hx with hx | hx
    · exact Or.inl (id_mem_ids_of_mem_allNodes u x hx)
    · exact Or.inr (id_mem_idsList_of_mem_allNodesList us x hx)
end

/-- Every child of a node occurs in the node listing of that node. -/
theorem child_mem_allNodes : ∀ (n c : Node),
    c ∈ n.children → c ∈ Node.allNodes n
  | .mk i k m p pr cs, c => by
    intro hc
    simp only [Node.children] at hc
    simp only [Node.allNodes, List.mem_cons]
    exact Or.inr (mem_allNodesList_of_mem cs c hc)

mutual
/-- Key walk lemma: in a tree with pairwise-distinct identities, no child of
a visited pruning node is ever visited. -/
theorem walk_prune_no_child : ∀ (t : Node), (Node.ids t).Nodup →
    ∀ (n : Node), n ∈ Node.walk t → n.pruneWalk = true →
    ∀ (c : Node), c ∈ n.children → c ∉ Node.walk t
  | .mk i k m p pr cs => by
    intro hnd n hn hp c hc hcw
    simp only [Node.ids] at hnd
    have hnotin : i ∉ Node.idsList cs := (List.nodup_cons.mp hnd).1
    have hndcs : (Node.idsList cs).Nodup := (List.nodup_cons.mp hnd).2
    simp only [Node.walk, List.mem_cons] at hn hcw
    rcases hn with rfl | hn
    · have hpr : pr = true := hp
      subst hpr
      simp only [Node.children] at hc
      have hceq : c = Node.mk i k m p true cs := by
        rcases hcw with h | h
        · exact h
        · simp at h
      have hcm : Node.mk i k m p true cs ∈ Node.allNodesList cs := by
        rw [← hceq]
        exact mem_allNodesList_of_mem cs c hc
      have hidm := id_mem_idsList_of_mem_allNodesList cs _ hcm
      exact hnotin (by simpa [Node.id] using hidm)
    · cases pr with
      | true => simp at hn
      | false =>
        simp only [Bool.false_eq_true, if_false] at hn hcw
        rcases hcw with rfl | hcw2
        · have hca : Node.mk i k m p false cs ∈ Node.allNodes n :=
            child_mem_allNodes n _ hc
          have hna : n ∈ Node.allNodesList cs :=
            walkList_mem_allNodesList cs n hn
          have hra : Node.mk i k m p false cs ∈ Node.allNodesList cs :=
            mem_allNodesList_trans cs n _ hna hca
          have hidm := id_mem_idsList_of_mem_allNodesList cs _ hra
          exact hnotin (by simpa [Node.id] using hidm)
        · exact walkList_prune_no_child cs hndcs n hn hp c hc hcw2

/-- Key walk lemma, list form: in a forest with pairwise-distinct
identities, no child of a visited pruning node is ever visited. -/
theorem walkList_prune_no_child : ∀ (l : List Node), (Node.idsList l).Nodup →
    ∀ (n : Node), n ∈ Node.walkList l → n.pruneWalk = true →
    ∀ (c : Node), c ∈ n.children → c ∉ Node.walkList l
  | [] => by intro hnd n hn; simp [Node.walkList] at hn
  | u :: us => by
    intro hnd n hn hp c hc hcw
    simp only [Node.walkList, List.mem_append] at hn hcw
    simp only [Node.idsList] at hnd
    have hndu : (Node.ids u).Nodup := List.Nodup.of_append_left hnd
    have hndus : (Node.idsList us).Nodup := List.Nodup.of_append_right hnd
    have hdisj : ∀ a, a ∈ Node.ids u → a ∉ Node.idsList us :=
      fun a ha hb => (List.disjoint_of_nodup_append hnd) ha hb
    rcases hn with hn | hn
    · rcases hcw with hcw | hcw
      · exact walk_prune_no_child u hndu n hn hp c hc hcw
      · have hcu : c ∈ Node.allNodes u :=
          mem_allNodes_trans u n c (walk_mem_allNodes u n hn)
            (child_mem_allNodes n c hc)
        exact hdisj c.id (id_mem_ids_of_mem_allNodes u c hcu)
          (id_mem_idsList_of_mem_allNodesList us c
            (walkList_mem_allNodesList us c hcw))
    · rcases hcw with hcw | hcw
      · have hcn : c ∈ Node.allNodesList us :=
          mem_allNodesList_trans us n c (walkList_mem_allNodesList us n hn)
            (child_mem_allNodes n c hc)
        exact hdisj c.id
          (id_mem_ids_of_mem_allNodes u c (walk_mem_allNodes u c hcw))
          (id_mem_idsList_of_mem_allNodesList us c hcn)
      · exact walkList_prune_no_child us hndus n hn hp c hc hcw
end

/-- C7 counterexample: in the tree rooted at cRoot, the node cInner has the
prune flag set and occurs in the tree, yet a full walk of the tree never
visits cInner at all, because its parent also prunes; so a pruning node in
the tree is not always itself visited, refuting the claim as stated. -/
theorem c7_prune_visit_counterexample :
    cInner ∈ Node.allNodes cRoot ∧ cInner.pruneWalk = true ∧
    cInner ∉ Node.walk cRoot := by
  refine ⟨?_, rfl, ?_⟩
  · have h : Node.allNodes cRoot = [cRoot, cInner, e0] := rfl
    rw [h]
    exact List.mem_cons_of_mem _ (List.mem_cons_self _ _)
  · intro hmem
    have h : Node.walk cRoot = [cRoot] := rfl
    rw [h] at hmem
    have hx : cInner = cRoot := by simpa using hmem
    exact absurd (congrArg Node.id hx) (by decide)

/-- C7 (amended): in a tree whose node identities are pairwise distinct,
every node with the prune flag that the full-tree walk visits has none of
its children visited (the walker does not descend below a pruning node), and
the walk always visits the root itself. -/
theorem c7_prune_amended (t n : Node) (hnd : (Node.ids t).Nodup)
    (hn : n ∈ Node.walk t) (hp : n.pruneWalk = true) :
    (∀ c ∈ n.children, c ∉ Node.walk t) ∧ t ∈ Node.walk t :=
  ⟨fun c hc => walk_prune_no_child t hnd n hn hp c hc, self_mem_walk t⟩

/-- Witness for the amended C7: the pruning node wPruned below the unpruned
root wRoot is visited and neither of its children is. -/
theorem c7_prune_amended_witness :
    (Node.ids wRoot).Nodup ∧ wPruned ∈ Node.walk wRoot ∧
    wPruned.pruneWalk = true ∧
    ((∀ c ∈ wPruned.children, c ∉ Node.walk wRoot) ∧
     wRoot ∈ Node.walk wRoot) := by
  have hmem : wPruned ∈ Node.walk wRoot := by
    have h : Node.walk wRoot = [wRoot, wPruned] := rfl
    rw [h]
    exact List.mem_cons_of_mem _ (List.mem_cons_self _ _)
  exact ⟨by decide, hmem, rfl,
    c7_prune_amended wRoot wPruned (by decide) hmem rfl⟩
